import Mathlib

/-!
Verification of the py-caskdb repository (a BitCask-style key-value store).

Embedding conventions:
* Python `bytes` are modelled as `List Nat`, each entry intended `< 256`.
* Python `str` is modelled as `Str := List Nat`, a list of Unicode code
  points (Python strings are sequences of code points; they may contain
  surrogates, which make UTF-8 encoding fail, exactly as in CPython).
* A Python function that can raise an exception is modelled as returning
  `Option _`, with `none` for "an exception was raised".
* The strict UTF-8 codec used by `str.encode("utf-8")` /
  `bytes.decode("utf-8")` is spelled out explicitly below: the decoder
  rejects overlong forms, surrogates, code points above 0x10FFFF, stray
  continuation bytes and truncated sequences, as CPython does.
-/

/-- A Python string: a sequence of Unicode code points. -/
abbrev Str := List Nat

/-- A code point that `str.encode("utf-8")` accepts: below 0x110000 and
not a surrogate. -/
def isValidCp (c : Nat) : Bool :=
  decide (c < 0x110000) && !(decide (0xD800 ≤ c) && decide (c < 0xE000))

/-- UTF-8 encoding of a single (valid) code point. -/
def utf8EncodeChar (c : Nat) : List Nat :=
  if c < 0x80 then [c]
  else if c < 0x800 then [0xC0 + c / 0x40, 0x80 + c % 0x40]
  else if c < 0x10000 then
    [0xE0 + c / 0x1000, 0x80 + c / 0x40 % 0x40, 0x80 + c % 0x40]
  else
    [0xF0 + c / 0x40000, 0x80 + c / 0x1000 % 0x40, 0x80 + c / 0x40 % 0x40,
      0x80 + c % 0x40]

/-- UTF-8 encoding of a sequence of code points (content of
`str.encode("utf-8")` when it succeeds). -/
def utf8Encode : Str → List Nat
  | [] => []
  | c :: cs => utf8EncodeChar c ++ utf8Encode cs

/-- Is a byte a UTF-8 continuation byte (0x80..0xBF)? -/
def isCont (b : Nat) : Bool := decide (0x80 ≤ b) && decide (b < 0xC0)

/-- Decode one two-byte UTF-8 sequence with lead byte `b` (0xC2..0xDF):
the decoded code point and the remaining bytes.  Lead bytes 0xC0/0xC1
(overlong forms) were already rejected by the caller. -/
def utf8DecodeTwo (b : Nat) : List Nat → Option (Nat × List Nat)
  | b1 :: rest =>
    if isCont b1 then some ((b - 0xC0) * 0x40 + (b1 - 0x80), rest) else none
  | [] => none

/-- Decode one three-byte UTF-8 sequence with lead byte `b` (0xE0..0xEF),
rejecting overlong forms (below 0x800) and surrogates. -/
def utf8DecodeThree (b : Nat) : List Nat → Option (Nat × List Nat)
  | b1 :: b2 :: rest =>
    if isCont b1 && isCont b2 then
      let c := (b - 0xE0) * 0x1000 + (b1 - 0x80) * 0x40 + (b2 - 0x80)
      if 0x800 ≤ c ∧ ¬(0xD800 ≤ c ∧ c < 0xE000) then some (c, rest) else none
    else none
  | _ => none

/-- Decode one four-byte UTF-8 sequence with lead byte `b` (0xF0..0xF4),
rejecting overlong forms (below 0x10000) and code points above 0x10FFFF. -/
def utf8DecodeFour (b : Nat) : List Nat → Option (Nat × List Nat)
  | b1 :: b2 :: b3 :: rest =>
    if isCont b1 && isCont b2 && isCont b3 then
      let c := (b - 0xF0) * 0x40000 + (b1 - 0x80) * 0x1000 +
        (b2 - 0x80) * 0x40 + (b3 - 0x80)
      if 0x10000 ≤ c ∧ c < 0x110000 then some (c, rest) else none
    else none
  | _ => none

/-- Decode the first code point of a strict UTF-8 byte sequence: `none`
when the bytes do not start with a valid sequence (stray continuation
byte, banned lead byte, truncation, overlong form, surrogate, or a code
point above 0x10FFFF), `some (c, rest)` otherwise. -/
def utf8DecodeChar1 : List Nat → Option (Nat × List Nat)
  | [] => none
  | b :: rest =>
    if b < 0x80 then some (b, rest)
    else if b < 0xC2 then none
    else if b < 0xE0 then utf8DecodeTwo b rest
    else if b < 0xF0 then utf8DecodeThree b rest
    else if b < 0xF5 then utf8DecodeFour b rest
    else none

/-- Fuel-driven loop of the strict UTF-8 decoder.  One unit of fuel is
spent per decoded code point; since every code point consumes at least
one byte, `fuel = length of the input` always suffices (the fuel is a
termination device only, see `utf8DecodeLoop_fuel`). -/
def utf8DecodeLoop : Nat → List Nat → Option (List Nat)
  | _, [] => some []
  | 0, _ :: _ => none
  | fuel + 1, b :: rest =>
    match utf8DecodeChar1 (b :: rest) with
    | none => none
    | some (c, rem) => (utf8DecodeLoop fuel rem).map (fun cs => c :: cs)

/-- Strict UTF-8 decoder, as used by `bytes.decode("utf-8")`: `none`
models a raised `UnicodeDecodeError`. -/
def utf8DecodeAux (l : List Nat) : Option (List Nat) :=
  utf8DecodeLoop l.length l

/-- Python `key.encode("utf-8")`: fails (raises `UnicodeEncodeError`) when the
string contains a surrogate (or an out-of-range code point). -/
def strEncode (s : Str) : Option (List Nat) :=
  if s.all isValidCp then some (utf8Encode s) else none

/-- Python `data.decode("utf-8")`. -/
def strDecode (data : List Nat) : Option Str :=
  utf8DecodeAux data

/-- The four big-endian bytes of a 32-bit unsigned integer
(`struct.pack("!I", n)`). -/
def u32be (n : Nat) : List Nat :=
  [n / 0x1000000 % 256, n / 0x10000 % 256, n / 0x100 % 256, n % 256]

/-- Source `format.encode_header`: `struct.pack("!III", timestamp, key_size,
value_size)`.  `struct.pack` raises `struct.error` when an argument is
outside the unsigned 32-bit range, modelled by `none`. -/
def encode_header (timestamp key_size value_size : Nat) : Option (List Nat) :=
  if timestamp < 0x100000000 ∧ key_size < 0x100000000 ∧
      value_size < 0x100000000 then
    some (u32be timestamp ++ u32be key_size ++ u32be value_size)
  else none

/-- Source `format.encode_kv`: UTF-8 encode the key and the value, build the
header from their byte lengths and return `(len(result), result)`. -/
def encode_kv (timestamp : Nat) (key value : Str) : Option (Nat × List Nat) :=
  match strEncode key, strEncode value with
  | some key_bytes, some value_bytes =>
    match encode_header timestamp key_bytes.length value_bytes.length with
    | some header =>
      let result := header ++ key_bytes ++ value_bytes
      some (result.length, result)
    | none => none
  | _, _ => none

/-- Source `format.decode_header`: `struct.unpack("!III", data)`, which demands
exactly 12 bytes and otherwise raises `struct.error` (`none`). -/
def decode_header (data : List Nat) : Option (Nat × Nat × Nat) :=
  match data with
  | [b0, b1, b2, b3, b4, b5, b6, b7, b8, b9, b10, b11] =>
    some (((b0 * 256 + b1) * 256 + b2) * 256 + b3,
      ((b4 * 256 + b5) * 256 + b6) * 256 + b7,
      ((b8 * 256 + b9) * 256 + b10) * 256 + b11)
  | _ => none

/-- Source `format.decode_kv`: assert `len(data) >= 12`, decode the header from
`data[:12]`, assert `len(data) == 12 + key_size + value_size`, then
UTF-8-decode the key and value slices.  `none` models an
`AssertionError`, `struct.error` or `UnicodeDecodeError`. -/
def decode_kv (data : List Nat) : Option (Nat × Str × Str) :=
  let key_start := 3 * 4
  if key_start ≤ data.length then
    match decode_header (data.take key_start) with
    | some (timestamp, key_size, value_size) =>
      let value_start := key_start + key_size
      if data.length = value_start + value_size then
        match strDecode ((data.drop key_start).take key_size),
            strDecode ((data.drop value_start).take value_size) with
        | some key, some value => some (timestamp, key, value)
        | _, _ => none
      else none
    | none => none
  else none

/-! ## Codec lemmas -/

lemma u32be_length (n : Nat) : (u32be n).length = 4 := rfl

lemma list_len_twelve (data : List Nat) (h : data.length = 12) :
    ∃ b0 b1 b2 b3 b4 b5 b6 b7 b8 b9 b10 b11,
      data = [b0, b1, b2, b3, b4, b5, b6, b7, b8, b9, b10, b11] := by
  obtain _ | ⟨b0, data⟩ := data; · simp at h
  obtain _ | ⟨b1, data⟩ := data; · simp at h
  obtain _ | ⟨b2, data⟩ := data; · simp at h
  obtain _ | ⟨b3, data⟩ := data; · simp at h
  obtain _ | ⟨b4, data⟩ := data; · simp at h
  obtain _ | ⟨b5, data⟩ := data; · simp at h
  obtain _ | ⟨b6, data⟩ := data; · simp at h
  obtain _ | ⟨b7, data⟩ := data; · simp at h
  obtain _ | ⟨b8, data⟩ := data; · simp at h
  obtain _ | ⟨b9, data⟩ := data; · simp at h
  obtain _ | ⟨b10, data⟩ := data; · simp at h
  obtain _ | ⟨b11, data⟩ := data; · simp at h
  obtain _ | ⟨b12, data⟩ := data
  · exact ⟨b0, b1, b2, b3, b4, b5, b6, b7, b8, b9, b10, b11, rfl⟩
  · simp at h

lemma decode_header_u32be (t ks vs : Nat) (ht : t < 0x100000000)
    (hk : ks < 0x100000000) (hv : vs < 0x100000000) :
    decode_header (u32be t ++ u32be ks ++ u32be vs) = some (t, ks, vs) := by
  simp only [u32be, List.cons_append, List.nil_append, decode_header,
    Option.some.injEq, Prod.mk.injEq]
  refine ⟨?_, ?_, ?_⟩ <;> omega

lemma isValidCp_bounds (c : Nat) (h : isValidCp c = true) :
    c < 0x110000 ∧ ¬(0xD800 ≤ c ∧ c < 0xE000) := by
  simp only [isValidCp, Bool.and_eq_true, Bool.not_eq_true', Bool.and_eq_false_iff,
    decide_eq_true_eq, decide_eq_false_iff_not] at h
  refine ⟨h.1, ?_⟩
  rcases h.2 with h2 | h2 <;> omega

lemma utf8DecodeTwo_length (b : Nat) (l : List Nat) (c : Nat) (rem : List Nat)
    (h : utf8DecodeTwo b l = some (c, rem)) : rem.length < l.length := by
  match l with
  | [] => simp [utf8DecodeTwo] at h
  | b1 :: rest =>
    simp only [utf8DecodeTwo] at h
    split at h
    · simp only [Option.some.injEq, Prod.mk.injEq] at h
      obtain ⟨-, rfl⟩ := h
      simp
    · simp at h

lemma utf8DecodeThree_length (b : Nat) (l : List Nat) (c : Nat) (rem : List Nat)
    (h : utf8DecodeThree b l = some (c, rem)) : rem.length < l.length := by
  match l with
  | [] => simp [utf8DecodeThree] at h
  | [b1] => simp [utf8DecodeThree] at h
  | b1 :: b2 :: rest =>
    simp only [utf8DecodeThree] at h
    split at h
    · split at h
      · simp only [Option.some.injEq, Prod.mk.injEq] at h
        obtain ⟨-, rfl⟩ := h
        simp
        omega
      · simp at h
    · simp at h

lemma utf8DecodeFour_length (b : Nat) (l : List Nat) (c : Nat) (rem : List Nat)
    (h : utf8DecodeFour b l = some (c, rem)) : rem.length < l.length := by
  match l with
  | [] => simp [utf8DecodeFour] at h
  | [b1] => simp [utf8DecodeFour] at h
  | [b1, b2] => simp [utf8DecodeFour] at h
  | b1 :: b2 :: b3 :: rest =>
    simp only [utf8DecodeFour] at h
    split at h
    · split at h
      · simp only [Option.some.injEq, Prod.mk.injEq] at h
        obtain ⟨-, rfl⟩ := h
        simp
        omega
      · simp at h
    · simp at h

lemma utf8DecodeChar1_shrinks (l : List Nat) (c : Nat) (rem : List Nat)
    (h : utf8DecodeChar1 l = some (c, rem)) : rem.length < l.length := by
  match l with
  | [] => simp [utf8DecodeChar1] at h
  | b :: rest =>
    simp only [utf8DecodeChar1] at h
    split at h
    · simp only [Option.some.injEq, Prod.mk.injEq] at h
      obtain ⟨-, rfl⟩ := h
      simp
    · split at h
      · simp at h
      · split at h
        · have := utf8DecodeTwo_length b rest c rem h
          simp only [List.length_cons]
          omega
        · split at h
          · have := utf8DecodeThree_length b rest c rem h
            simp only [List.length_cons]
            omega
          · split at h
            · have := utf8DecodeFour_length b rest c rem h
              simp only [List.length_cons]
              omega
            · simp at h

lemma utf8DecodeLoop_fuel (fuel1 : Nat) :
    ∀ (fuel2 : Nat) (l : List Nat), l.length ≤ fuel1 → l.length ≤ fuel2 →
      utf8DecodeLoop fuel1 l = utf8DecodeLoop fuel2 l := by
  induction fuel1 with
  | zero =>
    intro fuel2 l h1 _
    have : l = [] := List.length_eq_zero.mp (Nat.le_zero.mp h1)
    subst this
    cases fuel2 <;> rfl
  | succ f1 ih =>
    intro fuel2 l h1 h2
    cases l with
    | nil => cases fuel2 <;> rfl
    | cons b rest =>
      cases fuel2 with
      | zero => simp at h2
      | succ f2 =>
        simp only [utf8DecodeLoop]
        cases hc : utf8DecodeChar1 (b :: rest) with
        | none => rfl
        | some cr =>
          obtain ⟨c, rem⟩ := cr
          have hrem := utf8DecodeChar1_shrinks _ _ _ hc
          simp only [List.length_cons] at h1 h2 hrem
          dsimp only
          rw [ih f2 rem (by omega) (by omega)]

lemma utf8DecodeChar1_encodeChar (c : Nat) (h : isValidCp c = true)
    (rest : List Nat) :
    utf8DecodeChar1 (utf8EncodeChar c ++ rest) = some (c, rest) := by
  obtain ⟨hv, hs⟩ := isValidCp_bounds c h
  by_cases h1 : c < 0x80
  · simp only [utf8EncodeChar, if_pos h1, List.cons_append, List.nil_append,
      utf8DecodeChar1]
  · by_cases h2 : c < 0x800
    · simp only [utf8EncodeChar, if_neg h1, if_pos h2, List.cons_append,
        List.nil_append, utf8DecodeChar1]
      rw [if_neg (by omega), if_neg (by omega), if_pos (by omega)]
      simp only [utf8DecodeTwo]
      rw [if_pos (by simp only [isCont, Bool.and_eq_true, decide_eq_true_eq]; omega)]
      simp only [Option.some.injEq, Prod.mk.injEq, and_true]
      omega
    · by_cases h3 : c < 0x10000
      · simp only [utf8EncodeChar, if_neg h1, if_neg h2, if_pos h3,
          List.cons_append, List.nil_append, utf8DecodeChar1]
        rw [if_neg (by omega), if_neg (by omega), if_neg (by omega),
          if_pos (by omega)]
        simp only [utf8DecodeThree]
        rw [if_pos (by simp only [isCont, Bool.and_eq_true, decide_eq_true_eq]; omega)]
        have hc : (0xE0 + c / 0x1000 - 0xE0) * 0x1000 +
            (0x80 + c / 0x40 % 0x40 - 0x80) * 0x40 + (0x80 + c % 0x40 - 0x80)
            = c := by omega
        rw [hc, if_pos ⟨by omega, hs⟩]
      · simp only [utf8EncodeChar, if_neg h1, if_neg h2, if_neg h3,
          List.cons_append, List.nil_append, utf8DecodeChar1]
        rw [if_neg (by omega), if_neg (by omega), if_neg (by omega),
          if_neg (by omega), if_pos (by omega)]
        simp only [utf8DecodeFour]
        rw [if_pos (by simp only [isCont, Bool.and_eq_true, decide_eq_true_eq]; omega)]
        have hc : (0xF0 + c / 0x40000 - 0xF0) * 0x40000 +
            (0x80 + c / 0x1000 % 0x40 - 0x80) * 0x1000 +
            (0x80 + c / 0x40 % 0x40 - 0x80) * 0x40 + (0x80 + c % 0x40 - 0x80)
            = c := by omega
        rw [hc, if_pos ⟨by omega, hv⟩]

lemma utf8EncodeChar_length_pos (c : Nat) : 1 ≤ (utf8EncodeChar c).length := by
  simp only [utf8EncodeChar]
  split
  · simp
  · split
    · simp
    · split <;> simp

lemma utf8DecodeLoop_encode (s : Str) :
    ∀ fuel, (∀ c ∈ s, isValidCp c = true) → (utf8Encode s).length ≤ fuel →
      utf8DecodeLoop fuel (utf8Encode s) = some s := by
  induction s with
  | nil => intro fuel _ _; cases fuel <;> rfl
  | cons c cs ih =>
    intro fuel h hfuel
    have hc : isValidCp c = true := h c (List.mem_cons_self c cs)
    have hcs : ∀ x ∈ cs, isValidCp x = true := fun x hx =>
      h x (List.mem_cons_of_mem c hx)
    have henc := utf8DecodeChar1_encodeChar c hc (utf8Encode cs)
    have hlen1 := utf8EncodeChar_length_pos c
    have hlen : (utf8Encode (c :: cs)).length =
        (utf8EncodeChar c).length + (utf8Encode cs).length := by
      simp [utf8Encode, List.length_append]
    obtain ⟨f, rfl⟩ : ∃ f, fuel = f + 1 := ⟨fuel - 1, by omega⟩
    obtain ⟨b, l', hbl⟩ : ∃ b l', utf8EncodeChar c ++ utf8Encode cs = b :: l' := by
      cases hE : utf8EncodeChar c with
      | nil => rw [hE] at hlen1; simp at hlen1
      | cons b bs => exact ⟨b, bs ++ utf8Encode cs, by simp [hE]⟩
    show utf8DecodeLoop (f + 1) (utf8Encode (c :: cs)) = some (c :: cs)
    have hE : utf8Encode (c :: cs) = utf8EncodeChar c ++ utf8Encode cs := rfl
    rw [hE, hbl]
    simp only [utf8DecodeLoop]
    rw [← hbl, henc]
    dsimp only
    rw [utf8DecodeLoop_fuel f (utf8Encode cs).length (utf8Encode cs)
      (by omega) le_rfl, ih (utf8Encode cs).length hcs le_rfl]
    rfl

lemma utf8DecodeAux_encode (s : Str) (h : ∀ c ∈ s, isValidCp c = true) :
    utf8DecodeAux (utf8Encode s) = some s :=
  utf8DecodeLoop_encode s (utf8Encode s).length h le_rfl

/-- The byte string of one encoded record `header || key_bytes ||
value_bytes`; `encode_kv` returns exactly these bytes when it succeeds
(`encode_kv_some`). -/
def entryBytes (e : Nat × Str × Str) : List Nat :=
  u32be e.1 ++ u32be (utf8Encode e.2.1).length ++
    u32be (utf8Encode e.2.2).length ++ utf8Encode e.2.1 ++ utf8Encode e.2.2

lemma strEncode_some (s : Str) (bs : List Nat) (h : strEncode s = some bs) :
    bs = utf8Encode s ∧ ∀ c ∈ s, isValidCp c = true := by
  unfold strEncode at h
  by_cases hall : s.all isValidCp = true
  · rw [if_pos hall] at h
    exact ⟨(Option.some.inj h).symm, fun c hc => List.all_eq_true.mp hall c hc⟩
  · rw [if_neg hall] at h
    cases h

lemma encode_header_some (t ks vs : Nat) (hdr : List Nat)
    (h : encode_header t ks vs = some hdr) :
    hdr = u32be t ++ u32be ks ++ u32be vs ∧
      t < 0x100000000 ∧ ks < 0x100000000 ∧ vs < 0x100000000 := by
  unfold encode_header at h
  by_cases hb : t < 0x100000000 ∧ ks < 0x100000000 ∧ vs < 0x100000000
  · rw [if_pos hb] at h
    exact ⟨(Option.some.inj h).symm, hb⟩
  · rw [if_neg hb] at h
    cases h

lemma encode_kv_some (t : Nat) (k v : Str) (n : Nat) (buf : List Nat)
    (h : encode_kv t k v = some (n, buf)) :
    buf = entryBytes (t, k, v) ∧ n = buf.length ∧
    (∀ c ∈ k, isValidCp c = true) ∧ (∀ c ∈ v, isValidCp c = true) ∧
    t < 0x100000000 ∧ (utf8Encode k).length < 0x100000000 ∧
    (utf8Encode v).length < 0x100000000 := by
  unfold encode_kv at h
  cases hk : strEncode k with
  | none => rw [hk] at h; cases h
  | some kb =>
    cases hv : strEncode v with
    | none => rw [hk, hv] at h; cases h
    | some vb =>
      rw [hk, hv] at h
      dsimp only at h
      cases hh : encode_header t kb.length vb.length with
      | none => rw [hh] at h; cases h
      | some hdr =>
        rw [hh] at h
        dsimp only at h
        obtain ⟨hbuf, hkvalid⟩ := strEncode_some k kb hk
        obtain ⟨hvbuf, hvvalid⟩ := strEncode_some v vb hv
        obtain ⟨hhdr, hbnd⟩ := encode_header_some t kb.length vb.length hdr hh
        obtain ⟨rfl, rfl⟩ : n = (hdr ++ kb ++ vb).length ∧ buf = hdr ++ kb ++ vb := by
          have := Option.some.inj h
          exact ⟨(congrArg Prod.fst this).symm, (congrArg Prod.snd this).symm⟩
        subst hbuf hvbuf hhdr
        exact ⟨rfl, rfl, hkvalid, hvvalid, hbnd⟩

lemma entryBytes_assoc (t : Nat) (k v : Str) :
    entryBytes (t, k, v) =
      (u32be t ++ u32be (utf8Encode k).length ++ u32be (utf8Encode v).length)
        ++ (utf8Encode k ++ utf8Encode v) := by
  simp [entryBytes, List.append_assoc]

lemma entryBytes_length (t : Nat) (k v : Str) :
    (entryBytes (t, k, v)).length =
      12 + (utf8Encode k).length + (utf8Encode v).length := by
  simp [entryBytes, List.length_append, u32be]
  omega

lemma decode_kv_record (t : Nat) (k v : Str)
    (hkv : ∀ c ∈ k, isValidCp c = true) (hvv : ∀ c ∈ v, isValidCp c = true)
    (ht : t < 0x100000000) (hks : (utf8Encode k).length < 0x100000000)
    (hvs : (utf8Encode v).length < 0x100000000) :
    decode_kv (entryBytes (t, k, v)) = some (t, k, v) := by
  have hdk : strDecode (utf8Encode k) = some k := utf8DecodeAux_encode k hkv
  have hdv : strDecode (utf8Encode v) = some v := utf8DecodeAux_encode v hvv
  have hH : (u32be t ++ u32be (utf8Encode k).length ++
      u32be (utf8Encode v).length).length = 12 := by
    simp [u32be]
  have hlen := entryBytes_length t k v
  have htake : (entryBytes (t, k, v)).take 12 =
      u32be t ++ u32be (utf8Encode k).length ++ u32be (utf8Encode v).length := by
    rw [entryBytes_assoc]
    exact List.take_left' hH
  have hdrop : (entryBytes (t, k, v)).drop 12 = utf8Encode k ++ utf8Encode v := by
    rw [entryBytes_assoc]
    exact List.drop_left' hH
  have hkey : ((entryBytes (t, k, v)).drop 12).take (utf8Encode k).length =
      utf8Encode k := by
    rw [hdrop]
    exact List.take_left _ _
  have hval : ((entryBytes (t, k, v)).drop (12 + (utf8Encode k).length)).take
      (utf8Encode v).length = utf8Encode v := by
    rw [← List.drop_drop, hdrop, List.drop_left, List.take_length]
  simp only [decode_kv]
  norm_num
  refine ⟨by omega, ?_⟩
  rw [htake, decode_header_u32be t _ _ ht hks hvs]
  dsimp only
  rw [if_pos (by omega)]
  rw [hkey, hval, hdk, hdv]

/-! ## The storage engine (disk_store.py) -/

/-- In-memory state of one `DiskStorage` engine: the bytes of the log
file on disk and the in-memory index KeyDir (Python dict `self.mapping`,
modelled as a function).  The write handle is opened in append mode and
seeked to end-of-file, so the write cursor is always `file.length`. -/
structure DiskStorage where
  file : List Nat
  mapping : Str → Option Nat

/-- Source `read_serialised_header(a_file)` with `a_file` positioned at `pos`:
read up to 12 bytes; a short read returns `None` (the outer `none`).  On
a full 12-byte read `decode_header` is applied; it cannot fail there
(it succeeds on any 12 bytes), so mapping its impossible failure to
`none` as well loses nothing. -/
def read_serialised_header (file : List Nat) (pos : Nat) :
    Option (List Nat × Nat × Nat × Nat) :=
  let header_buf := (file.drop pos).take 12
  if header_buf.length < 12 then none
  else
    match decode_header header_buf with
    | some (timestamp, key_size, value_size) =>
      some (header_buf, timestamp, key_size, value_size)
    | none => none

/-- The loop of `DiskStorage._load_existing`, scanning the log from byte
offset `pos` and recording each record's offset under its key.  One unit
of fuel is spent per record; every record occupies at least 12 bytes, so
`file.length + 1` units always suffice (`scanLoop_fuel`) — the fuel is a
termination device only.  The result is `none` when an exception escapes
`_load_existing` (a record whose body is truncated or that fails
decoding). -/
def scanLoop : Nat → List Nat → Nat → (Str → Option Nat) →
    Option (Str → Option Nat)
  | 0, _, _, _ => none
  | fuel + 1, file, pos, mapping =>
    match read_serialised_header file pos with
    | none => some mapping
    | some (header_buf, _, key_size, value_size) =>
      let tail_buf := (file.drop (pos + 12)).take (key_size + value_size)
      match decode_kv (header_buf ++ tail_buf) with
      | none => none
      | some (_, key, _) =>
        scanLoop fuel file (pos + 12 + key_size + value_size)
          (fun q => if q = key then some pos else mapping q)

/-- Source `DiskStorage.__init__` on a file whose bytes are `file`:
`_load_existing` scans from offset 0 and builds the index, then the
write handle is opened in append mode at end-of-file.  A missing file
behaves as an empty one (the scan of an empty file is a no-op and
`open(file_name, "ab")` creates the file). -/
def DiskStorage.init (file : List Nat) : Option DiskStorage :=
  (scanLoop (file.length + 1) file 0 (fun _ => none)).map (fun m => ⟨file, m⟩)

/-- Source `DiskStorage.set`: encode the record with the current wall-clock
timestamp (`int(datetime.now().timestamp())`, passed as a parameter
here since the clock is external input), append it at end-of-file,
flush, and point the index at the record's starting (pre-write)
offset. -/
def DiskStorage.set (s : DiskStorage) (timestamp : Nat) (key value : Str) :
    Option DiskStorage :=
  match encode_kv timestamp key value with
  | none => none
  | some (_, buf) =>
    some ⟨s.file ++ buf,
      fun q => if q = key then some s.file.length else s.mapping q⟩

/-- Source `DiskStorage.get`: a key absent from the index returns the empty
string; otherwise open a fresh read handle, seek to the recorded offset
and re-read and decode the record there (`none` models the `assert
header is not None` failing or a decode error propagating). -/
def DiskStorage.get (s : DiskStorage) (key : Str) : Option Str :=
  match s.mapping key with
  | none => some []
  | some offset =>
    match read_serialised_header s.file offset with
    | none => none
    | some (header_buf, _, key_size, value_size) =>
      let tail_buf := (s.file.drop (offset + 12)).take (key_size + value_size)
      (decode_kv (header_buf ++ tail_buf)).map (fun r => r.2.2)

/-- Source `DiskStorage.close`: flush and release the write handle.  Every
`set` already flushed, so the durable artifact is exactly the file's
bytes. -/
def DiskStorage.close (s : DiskStorage) : List Nat := s.file

/-- A freshly initialized engine on an absent or empty file. -/
def emptyStore : DiskStorage := ⟨[], fun _ => none⟩

/-- Run a sequence of `set` operations (with explicit timestamps) from a
given engine state. -/
def runSetsFrom (s : DiskStorage) : List (Nat × Str × Str) → Option DiskStorage
  | [] => some s
  | e :: es =>
    match s.set e.1 e.2.1 e.2.2 with
    | none => none
    | some s1 => runSetsFrom s1 es

/-- Run a sequence of `set` operations on a fresh engine. -/
def runSets (es : List (Nat × Str × Str)) : Option DiskStorage :=
  runSetsFrom emptyStore es

/-- The log bytes that a sequence of `set` operations appends. -/
def logOf : List (Nat × Str × Str) → List Nat
  | [] => []
  | e :: es => entryBytes e ++ logOf es

/-- The index obtained from `m` by recording, for each successive record
of the list, its starting offset (the first record starting at `off`)
under its key — later records overwrite earlier mappings. -/
def replayFrom (m : Str → Option Nat) (off : Nat) :
    List (Nat × Str × Str) → (Str → Option Nat)
  | [] => m
  | e :: es =>
    replayFrom (fun q => if q = e.2.1 then some off else m q)
      (off + (entryBytes e).length) es

/-! ## Engine lemmas -/

lemma read_serialised_header_le (file : List Nat) (pos : Nat)
    (x : List Nat × Nat × Nat × Nat)
    (h : read_serialised_header file pos = some x) : pos + 12 ≤ file.length := by
  unfold read_serialised_header at h
  by_cases hlt : ((file.drop pos).take 12).length < 12
  · rw [if_pos hlt] at h
    cases h
  · simp only [List.length_take, List.length_drop] at hlt
    omega

lemma record_read_at (pre R : List Nat) (t : Nat) (k v : Str)
    (ht : t < 0x100000000) (hks : (utf8Encode k).length < 0x100000000)
    (hvs : (utf8Encode v).length < 0x100000000) :
    read_serialised_header (pre ++ (entryBytes (t, k, v) ++ R)) pre.length =
      some (u32be t ++ u32be (utf8Encode k).length ++
          u32be (utf8Encode v).length,
        t, (utf8Encode k).length, (utf8Encode v).length) ∧
    ((pre ++ (entryBytes (t, k, v) ++ R)).drop (pre.length + 12)).take
        ((utf8Encode k).length + (utf8Encode v).length) =
      utf8Encode k ++ utf8Encode v := by
  have hH : (u32be t ++ u32be (utf8Encode k).length ++
      u32be (utf8Encode v).length).length = 12 := by
    simp [u32be]
  have hdropPre : (pre ++ (entryBytes (t, k, v) ++ R)).drop pre.length =
      entryBytes (t, k, v) ++ R := List.drop_left pre _
  have hassoc : entryBytes (t, k, v) ++ R =
      (u32be t ++ u32be (utf8Encode k).length ++ u32be (utf8Encode v).length)
        ++ ((utf8Encode k ++ utf8Encode v) ++ R) := by
    rw [entryBytes_assoc]
    simp [List.append_assoc]
  have htake12 : ((pre ++ (entryBytes (t, k, v) ++ R)).drop pre.length).take 12 =
      u32be t ++ u32be (utf8Encode k).length ++ u32be (utf8Encode v).length := by
    rw [hdropPre, hassoc]
    exact List.take_left' hH
  have hdrop12 : (pre ++ (entryBytes (t, k, v) ++ R)).drop (pre.length + 12) =
      (utf8Encode k ++ utf8Encode v) ++ R := by
    rw [← List.drop_drop, hdropPre, hassoc]
    exact List.drop_left' hH
  constructor
  · unfold read_serialised_header
    rw [htake12, if_neg (by rw [hH]; omega)]
    rw [decode_header_u32be t _ _ ht hks hvs]
  · rw [hdrop12]
    exact List.take_left' (List.length_append _ _)

lemma scanLoop_fuel (fuel1 : Nat) :
    ∀ (fuel2 : Nat) (file : List Nat) (pos : Nat) (m : Str → Option Nat),
      file.length + 1 ≤ fuel1 + pos → 1 ≤ fuel1 →
      file.length + 1 ≤ fuel2 + pos → 1 ≤ fuel2 →
      scanLoop fuel1 file pos m = scanLoop fuel2 file pos m := by
  induction fuel1 with
  | zero =>
    intro _ _ _ _ _ h _ _
    exact absurd h (by omega)
  | succ f1 ih =>
    intro fuel2 file pos m h1 _ h2 hf2
    obtain ⟨f2, rfl⟩ : ∃ f2', fuel2 = f2' + 1 := ⟨fuel2 - 1, by omega⟩
    simp only [scanLoop]
    cases hr : read_serialised_header file pos with
    | none => rfl
    | some x =>
      obtain ⟨hb, t, ks, vs⟩ := x
      have hle := read_serialised_header_le file pos _ hr
      dsimp only
      cases hd : decode_kv (hb ++ (file.drop (pos + 12)).take (ks + vs)) with
      | none => rfl
      | some r =>
        obtain ⟨t', k', v'⟩ := r
        dsimp only
        exact ih f2 file (pos + 12 + ks + vs) _ (by omega) (by omega)
          (by omega) (by omega)

/-- An entry that `encode_kv` accepts (its strings contain no surrogate
and the timestamp and encoded lengths fit in 32 bits). -/
def EntryOk (e : Nat × Str × Str) : Prop :=
  (encode_kv e.1 e.2.1 e.2.2).isSome

lemma entryOk_facts (t : Nat) (k v : Str) (h : EntryOk (t, k, v)) :
    (∀ c ∈ k, isValidCp c = true) ∧ (∀ c ∈ v, isValidCp c = true) ∧
    t < 0x100000000 ∧ (utf8Encode k).length < 0x100000000 ∧
    (utf8Encode v).length < 0x100000000 ∧
    encode_kv t k v = some ((entryBytes (t, k, v)).length, entryBytes (t, k, v)) := by
  unfold EntryOk at h
  rw [Option.isSome_iff_exists] at h
  obtain ⟨x, hx⟩ := h
  obtain ⟨n, buf⟩ := x
  obtain ⟨hbuf, hn, hkv, hvv, hbnd⟩ := encode_kv_some t k v n buf hx
  subst hbuf
  subst hn
  exact ⟨hkv, hvv, hbnd.1, hbnd.2.1, hbnd.2.2, hx⟩

lemma scanLoop_log (es : List (Nat × Str × Str)) :
    ∀ (pre tail : List Nat) (m : Str → Option Nat) (fuel : Nat),
      (∀ e ∈ es, EntryOk e) → tail.length < 12 →
      (pre ++ (logOf es ++ tail)).length + 1 ≤ fuel + pre.length → 1 ≤ fuel →
      scanLoop fuel (pre ++ (logOf es ++ tail)) pre.length m =
        some (replayFrom m pre.length es) := by
  induction es with
  | nil =>
    intro pre tail m fuel _ htail _ hf
    obtain ⟨f, rfl⟩ : ∃ f, fuel = f + 1 := ⟨fuel - 1, by omega⟩
    simp only [logOf, List.nil_append, scanLoop, replayFrom]
    have hshort : read_serialised_header (pre ++ tail) pre.length = none := by
      unfold read_serialised_header
      rw [List.drop_left pre tail,
        if_pos (by simp only [List.length_take]; omega)]
    rw [hshort]
  | cons e es ih =>
    intro pre tail m fuel hok htail hfuel hf
    obtain ⟨t, k, v⟩ := e
    obtain ⟨hkv, hvv, ht, hks, hvs, -⟩ :=
      entryOk_facts t k v (hok _ (List.mem_cons_self _ _))
    have hok' : ∀ e ∈ es, EntryOk e := fun e he =>
      hok e (List.mem_cons_of_mem _ he)
    have hEB := entryBytes_length t k v
    have hfile : pre ++ (logOf ((t, k, v) :: es) ++ tail) =
        pre ++ (entryBytes (t, k, v) ++ (logOf es ++ tail)) := by
      simp only [logOf, List.append_assoc]
    obtain ⟨f, rfl⟩ : ∃ f, fuel = f + 1 := ⟨fuel - 1, by omega⟩
    rw [hfile]
    simp only [scanLoop]
    obtain ⟨hrsh, htail_buf⟩ :=
      record_read_at pre (logOf es ++ tail) t k v ht hks hvs
    rw [hrsh]
    dsimp only
    rw [htail_buf, ← entryBytes_assoc t k v,
      decode_kv_record t k v hkv hvv ht hks hvs]
    dsimp only
    have hpre' : pre.length + 12 + (utf8Encode k).length +
        (utf8Encode v).length = (pre ++ entryBytes (t, k, v)).length := by
      simp only [List.length_append]
      omega
    have hassoc2 : pre ++ (entryBytes (t, k, v) ++ (logOf es ++ tail)) =
        (pre ++ entryBytes (t, k, v)) ++ (logOf es ++ tail) := by
      simp [List.append_assoc]
    rw [hpre', hassoc2]
    have hfuel' : pre.length + ((entryBytes (t, k, v)).length +
        ((logOf es).length + tail.length)) + 1 ≤ (f + 1) + pre.length := by
      simpa only [logOf, List.append_assoc, List.length_append] using hfuel
    rw [ih (pre ++ entryBytes (t, k, v)) tail _ f hok' htail
      (by simp only [List.length_append]; omega)
      (by omega)]
    simp only [replayFrom, List.length_append]

lemma set_some (s s' : DiskStorage) (t : Nat) (k v : Str)
    (h : s.set t k v = some s') :
    EntryOk (t, k, v) ∧
    s' = ⟨s.file ++ entryBytes (t, k, v),
      fun q => if q = k then some s.file.length else s.mapping q⟩ := by
  unfold DiskStorage.set at h
  cases henc : encode_kv t k v with
  | none => rw [henc] at h; cases h
  | some nb =>
    obtain ⟨n, buf⟩ := nb
    rw [henc] at h
    dsimp only at h
    obtain ⟨hbuf, -, -⟩ := encode_kv_some t k v n buf henc
    subst hbuf
    exact ⟨by simp [EntryOk, henc], (Option.some.inj h).symm⟩

lemma set_get (s s' : DiskStorage) (t : Nat) (k v : Str)
    (h : s.set t k v = some s') : s'.get k = some v := by
  obtain ⟨hok, rfl⟩ := set_some s s' t k v h
  obtain ⟨hkv, hvv, ht, hks, hvs, -⟩ := entryOk_facts t k v hok
  unfold DiskStorage.get
  dsimp only
  rw [if_pos rfl]
  dsimp only
  have h0 := record_read_at s.file [] t k v ht hks hvs
  rw [List.append_nil] at h0
  obtain ⟨hrsh, htb⟩ := h0
  rw [hrsh]
  dsimp only
  rw [htb, ← entryBytes_assoc t k v, decode_kv_record t k v hkv hvv ht hks hvs]
  rfl

lemma runSetsFrom_spec (es : List (Nat × Str × Str)) :
    ∀ s0 s, runSetsFrom s0 es = some s →
      (∀ e ∈ es, EntryOk e) ∧ s.file = s0.file ++ logOf es ∧
      s.mapping = replayFrom s0.mapping s0.file.length es := by
  induction es with
  | nil =>
    intro s0 s h
    simp only [runSetsFrom, Option.some.injEq] at h
    subst h
    refine ⟨by simp, by simp [logOf], by simp [replayFrom]⟩
  | cons e es ih =>
    intro s0 s h
    obtain ⟨t, k, v⟩ := e
    unfold runSetsFrom at h
    cases hset : s0.set t k v with
    | none => rw [hset] at h; cases h
    | some s1 =>
      rw [hset] at h
      dsimp only at h
      obtain ⟨hok, hf, hm⟩ := ih s1 s h
      obtain ⟨he, rfl⟩ := set_some s0 s1 t k v hset
      refine ⟨?_, ?_, ?_⟩
      · intro e' he'
        rcases List.mem_cons.mp he' with rfl | hmem
        · exact he
        · exact hok e' hmem
      · rw [hf]
        simp [logOf, List.append_assoc]
      · rw [hm]
        simp only [replayFrom, List.length_append]

lemma init_of_runSets (es : List (Nat × Str × Str)) (s : DiskStorage)
    (h : runSets es = some s) : DiskStorage.init s.file = some s := by
  obtain ⟨hok, hf, hm⟩ := runSetsFrom_spec es emptyStore s h
  have hf' : s.file = logOf es := by simpa [emptyStore] using hf
  have hm' : s.mapping = replayFrom (fun _ => none) 0 es := by
    simpa [emptyStore] using hm
  unfold DiskStorage.init
  have hscan := scanLoop_log es [] [] (fun _ => none) ((logOf es).length + 1)
    hok (by norm_num)
    (by simp only [List.nil_append, List.append_nil, List.length_nil]; omega)
    (by omega)
  simp only [List.nil_append, List.append_nil, List.length_nil] at hscan
  rw [hf', hscan]
  rw [← hf', ← hm']
  rfl

lemma read_serialised_header_some (file : List Nat) (pos : Nat)
    (hb : List Nat) (t ks vs : Nat)
    (h : read_serialised_header file pos = some (hb, t, ks, vs)) :
    hb = (file.drop pos).take 12 ∧ hb.length = 12 ∧ pos + 12 ≤ file.length ∧
    decode_header hb = some (t, ks, vs) := by
  unfold read_serialised_header at h
  by_cases hlt : ((file.drop pos).take 12).length < 12
  · rw [if_pos hlt] at h
    cases h
  · rw [if_neg hlt] at h
    cases hd : decode_header ((file.drop pos).take 12) with
    | none => rw [hd] at h; cases h
    | some y =>
      obtain ⟨t', ks', vs'⟩ := y
      rw [hd] at h
      dsimp only at h
      simp only [Option.some.injEq, Prod.mk.injEq] at h
      obtain ⟨h1, h2, h3, h4⟩ := h
      subst h1 h2 h3 h4
      simp only [List.length_take, List.length_drop] at hlt
      refine ⟨rfl, ?_, ?_, hd⟩
      · simp only [List.length_take, List.length_drop]
        omega
      · omega

lemma decode_kv_some_facts (data : List Nat) (t : Nat) (k v : Str)
    (h : decode_kv data = some (t, k, v)) :
    ∃ ks vs, decode_header (data.take 12) = some (t, ks, vs) ∧
      data.length = 12 + ks + vs ∧
      strDecode ((data.drop 12).take ks) = some k ∧
      strDecode ((data.drop (12 + ks)).take vs) = some v := by
  simp only [decode_kv] at h
  norm_num at h
  obtain ⟨hlen, h⟩ := h
  cases hd : decode_header (data.take 12) with
  | none => rw [hd] at h; cases h
  | some y =>
    obtain ⟨t0, ks, vs⟩ := y
    rw [hd] at h
    dsimp only at h
    split at h
    · cases hk : strDecode ((data.drop 12).take ks) with
      | none => rw [hk] at h; cases h
      | some k0 =>
        cases hv : strDecode ((data.drop (12 + ks)).take vs) with
        | none => rw [hk, hv] at h; cases h
        | some v0 =>
          rw [hk, hv] at h
          dsimp only at h
          simp only [Option.some.injEq, Prod.mk.injEq] at h
          obtain ⟨rfl, rfl, rfl⟩ := h
          exact ⟨ks, vs, rfl, by omega, hk, hv⟩
    · cases h

lemma get_frame (s s' : DiskStorage) (t : Nat) (k v : Str) (k' r : Str)
    (h : s.set t k v = some s') (hne : k' ≠ k) (hget : s.get k' = some r) :
    s'.get k' = some r := by
  obtain ⟨-, rfl⟩ := set_some s s' t k v h
  unfold DiskStorage.get at hget ⊢
  dsimp only at hget ⊢
  rw [if_neg hne]
  cases hmk : s.mapping k' with
  | none =>
    rw [hmk] at hget
    exact hget
  | some off =>
    rw [hmk] at hget
    dsimp only at hget
    cases hr : read_serialised_header s.file off with
    | none => rw [hr] at hget; cases hget
    | some x =>
      obtain ⟨hb, t0, ks, vs⟩ := x
      rw [hr] at hget
      dsimp only at hget
      obtain ⟨hbdef, hblen, hle, hbdec⟩ :=
        read_serialised_header_some s.file off hb t0 ks vs hr
      obtain ⟨rec, hrec, hrecv⟩ := Option.map_eq_some'.mp hget
      obtain ⟨t1, k1, v1⟩ := rec
      obtain ⟨ks1, vs1, hdec1, hlen1, -, -⟩ :=
        decode_kv_some_facts _ t1 k1 v1 hrec
      have htb12 : (hb ++ (s.file.drop (off + 12)).take (ks + vs)).take 12
          = hb := List.take_left' hblen
      rw [htb12, hbdec] at hdec1
      simp only [Option.some.injEq, Prod.mk.injEq] at hdec1
      obtain ⟨-, h2, h3⟩ := hdec1
      subst h2 h3
      have htblen : ((s.file.drop (off + 12)).take (ks + vs)).length = ks + vs := by
        simp only [List.length_append, hblen] at hlen1
        omega
      have hcomplete : off + 12 + ks + vs ≤ s.file.length := by
        simp only [List.length_take, List.length_drop] at htblen
        omega
      -- reads in the appended file agree with reads in the old file
      have hdrop : (s.file ++ entryBytes (t, k, v)).drop off =
          s.file.drop off ++ entryBytes (t, k, v) :=
        List.drop_append_of_le_length (by omega)
      have hhb' : ((s.file ++ entryBytes (t, k, v)).drop off).take 12 = hb := by
        rw [hdrop, List.take_append_of_le_length
          (by simp only [List.length_drop]; omega), ← hbdef]
      have hrsh' : read_serialised_header (s.file ++ entryBytes (t, k, v)) off =
          some (hb, t0, ks, vs) := by
        unfold read_serialised_header
        rw [hhb', if_neg (by omega), hbdec]
      have hdrop2 : (s.file ++ entryBytes (t, k, v)).drop (off + 12) =
          s.file.drop (off + 12) ++ entryBytes (t, k, v) :=
        List.drop_append_of_le_length (by omega)
      have htb' : ((s.file ++ entryBytes (t, k, v)).drop (off + 12)).take (ks + vs) =
          (s.file.drop (off + 12)).take (ks + vs) := by
        rw [hdrop2, List.take_append_of_le_length
          (by simp only [List.length_drop]; omega)]
      dsimp only
      rw [hrsh']
      dsimp only
      rw [htb', hrec]
      simpa using hrecv

lemma runSetsFrom_get_total (es : List (Nat × Str × Str)) :
    ∀ s0 s, runSetsFrom s0 es = some s → (∀ q, ∃ r, s0.get q = some r) →
      ∀ q, ∃ r, s.get q = some r := by
  induction es with
  | nil =>
    intro s0 s h h0
    simp only [runSetsFrom, Option.some.injEq] at h
    subst h
    exact h0
  | cons e es ih =>
    intro s0 s h h0
    obtain ⟨t, k, v⟩ := e
    unfold runSetsFrom at h
    cases hset : s0.set t k v with
    | none => rw [hset] at h; cases h
    | some s1 =>
      rw [hset] at h
      dsimp only at h
      refine ih s1 s h ?_
      intro q
      by_cases hq : q = k
      · subst hq
        exact ⟨v, set_get s0 s1 t q v hset⟩
      · obtain ⟨r, hr⟩ := h0 q
        exact ⟨r, get_frame s0 s1 t k v q r hset hq hr⟩

lemma runSets_get_total (es : List (Nat × Str × Str)) (s : DiskStorage)
    (h : runSets es = some s) : ∀ q, ∃ r, s.get q = some r :=
  runSetsFrom_get_total es emptyStore s h (fun _ => ⟨[], rfl⟩)

/-! ## The claims -/

/-- C1: for every engine state, `Set(k, v)` immediately followed by
`Get(k)` returns `v`, and after `Set(k, v1)` then `Set(k, v2)`, `Get(k)`
returns `v2` (last-write-wins), for all keys and values. -/
theorem claim_C1 (s : DiskStorage) (k : Str) :
    (∀ t v s', s.set t k v = some s' → s'.get k = some v) ∧
    (∀ t1 t2 v1 v2 s1 s2, s.set t1 k v1 = some s1 →
      s1.set t2 k v2 = some s2 → s2.get k = some v2) :=
  ⟨fun t v s' h => set_get s s' t k v h,
   fun _ t2 _ v2 s1 s2 _ h2 => set_get s1 s2 t2 k v2 h2⟩

/-- C1 witness: `Set("hamlet", "shakespeare")`; `Set("hamlet", "bard")`;
`Get("hamlet") == "bard"` (strings as code-point lists). -/
theorem claim_C1_witness :
    ∃ s1 s2 : DiskStorage,
      emptyStore.set 0 [104, 97, 109, 108, 101, 116]
        [115, 104, 97, 107, 101, 115, 112, 101, 97, 114, 101] = some s1 ∧
      s1.set 1 [104, 97, 109, 108, 101, 116] [98, 97, 114, 100] = some s2 ∧
      s2.get [104, 97, 109, 108, 101, 116] = some [98, 97, 114, 100] := by
  refine ⟨_, _, rfl, rfl, ?_⟩
  exact (claim_C1 emptyStore [104, 97, 109, 108, 101, 116]).2
    0 1 [115, 104, 97, 107, 101, 115, 112, 101, 97, 114, 101]
    [98, 97, 114, 100] _ _ rfl rfl

/-- C2: for every timestamp below `2^32` and all strings whose UTF-8
encodings exist (no surrogates) and are at most `2^32 - 1` bytes long,
`decode_kv` of the bytes produced by `encode_kv` yields exactly
`(timestamp, key, value)`. -/
theorem claim_C2 (t : Nat) (k v : Str) (ht : t < 2 ^ 32)
    (hk : ∀ c ∈ k, isValidCp c = true) (hv : ∀ c ∈ v, isValidCp c = true)
    (hkl : (utf8Encode k).length ≤ 2 ^ 32 - 1)
    (hvl : (utf8Encode v).length ≤ 2 ^ 32 - 1) :
    ∃ n buf, encode_kv t k v = some (n, buf) ∧
      decode_kv buf = some (t, k, v) := by
  have hpow : (2 : Nat) ^ 32 = 0x100000000 := by norm_num
  have ht' : t < 0x100000000 := by omega
  have hks : (utf8Encode k).length < 0x100000000 := by omega
  have hvs : (utf8Encode v).length < 0x100000000 := by omega
  refine ⟨(entryBytes (t, k, v)).length, entryBytes (t, k, v), ?_,
    decode_kv_record t k v hk hv ht' hks hvs⟩
  unfold encode_kv strEncode
  rw [if_pos (List.all_eq_true.mpr hk), if_pos (List.all_eq_true.mpr hv)]
  dsimp only
  unfold encode_header
  rw [if_pos ⟨ht', hks, hvs⟩]
  rfl

/-- C2 witness: a concrete round trip, with a multi-byte character in
the value. -/
theorem claim_C2_witness :
    ∃ n buf, encode_kv 5 [104, 105] [232] = some (n, buf) ∧
      decode_kv buf = some (5, [104, 105], [232]) :=
  claim_C2 5 [104, 105] [232] (by norm_num) (by decide) (by decide)
    (by decide) (by decide)

/-- C3: for every sequence of `set` operations on a fresh engine that is
then closed, a new engine initialized on the same file rebuilds its
index by scanning the log from offset 0 (later records overwriting
earlier mappings), and every `get` on the new engine returns the same
value as on the old one. -/
theorem claim_C3 (es : List (Nat × Str × Str)) (s : DiskStorage)
    (h : runSets es = some s) :
    ∃ s2, DiskStorage.init (DiskStorage.close s) = some s2 ∧
      ∀ q, s2.get q = s.get q :=
  ⟨s, init_of_runSets es s h, fun _ => rfl⟩

/-- C3 witness: `Set("othello", "shakespeare")`; `Close()`; reopen;
`Get("othello") == "shakespeare"`. -/
theorem claim_C3_witness :
    ∃ s s2 : DiskStorage,
      runSets [(0, [111, 116, 104, 101, 108, 108, 111],
        [115, 104, 97, 107, 101, 115, 112, 101, 97, 114, 101])] = some s ∧
      DiskStorage.init (DiskStorage.close s) = some s2 ∧
      s2.get [111, 116, 104, 101, 108, 108, 111] =
        some [115, 104, 97, 107, 101, 115, 112, 101, 97, 114, 101] := by
  obtain ⟨s2, h1, h2⟩ := claim_C3 [(0, [111, 116, 104, 101, 108, 108, 111],
    [115, 104, 97, 107, 101, 115, 112, 101, 97, 114, 101])] _ rfl
  exact ⟨_, s2, rfl, h1,
    (h2 [111, 116, 104, 101, 108, 108, 111]).trans rfl⟩

/-- C4: `get` on a key absent from the index returns the empty string
(no error is raised), and `get` after storing the empty string also
returns the empty string — the two are indistinguishable. -/
theorem claim_C4 (s : DiskStorage) (k : Str) :
    (s.mapping k = none → s.get k = some []) ∧
    (∀ t s', s.set t k [] = some s' → s'.get k = some []) := by
  constructor
  · intro h
    unfold DiskStorage.get
    rw [h]
  · intro t s' h
    exact set_get s s' t k [] h

/-- C4 witness: `get` of a never-written key on a fresh engine, and
`get` after storing the empty string, both return `""`. -/
theorem claim_C4_witness :
    emptyStore.get [104] = some [] ∧
    ∃ s', emptyStore.set 0 [104] [] = some s' ∧ s'.get [104] = some [] := by
  refine ⟨(claim_C4 emptyStore [104]).1 rfl, _, rfl, ?_⟩
  exact (claim_C4 emptyStore [104]).2 0 _ rfl

/-- C5: a file consisting of the log written by a sequence of `set`
operations followed by a short trailing tail (fewer than 12 bytes, a
partially written last record) initializes without error: the scan stops
at the tail, and the index is exactly the one the complete records
determine. -/
theorem claim_C5 (es : List (Nat × Str × Str)) (s : DiskStorage)
    (tail : List Nat) (h : runSets es = some s) (htail : tail.length < 12) :
    ∃ s2, DiskStorage.init (s.file ++ tail) = some s2 ∧
      s2.file = s.file ++ tail ∧ s2.mapping = s.mapping := by
  obtain ⟨hok, hf, hm⟩ := runSetsFrom_spec es emptyStore s h
  have hf' : s.file = logOf es := by simpa [emptyStore] using hf
  have hm' : s.mapping = replayFrom (fun _ => none) 0 es := by
    simpa [emptyStore] using hm
  have hscan := scanLoop_log es [] tail (fun _ => none)
    ((logOf es ++ tail).length + 1) hok htail
    (by simp only [List.nil_append, List.length_nil]; omega) (by omega)
  simp only [List.nil_append, List.length_nil] at hscan
  refine ⟨⟨s.file ++ tail, s.mapping⟩, ?_, rfl, rfl⟩
  unfold DiskStorage.init
  rw [hf', hm', hscan]
  rfl

/-- C5 witness: one record plus a 3-byte dangling tail. -/
theorem claim_C5_witness :
    ∃ s : DiskStorage, runSets [(0, [104], [105])] = some s ∧
      ∃ s2, DiskStorage.init (s.file ++ [1, 2, 3]) = some s2 ∧
        s2.file = s.file ++ [1, 2, 3] ∧ s2.mapping = s.mapping :=
  ⟨_, rfl, claim_C5 [(0, [104], [105])] _ [1, 2, 3] rfl (by decide)⟩

/-- C6: `decode_kv data` succeeds exactly when `data` is exactly
`12 + key_size + value_size` bytes long — where `key_size` and
`value_size` are the fields of its embedded 12-byte header — and the key
and value slices are valid UTF-8; otherwise it fails. -/
theorem claim_C6 (data : List Nat) :
    (∃ r, decode_kv data = some r) ↔
      ∃ t ks vs, decode_header (data.take 12) = some (t, ks, vs) ∧
        data.length = 12 + ks + vs ∧
        (strDecode ((data.drop 12).take ks)).isSome = true ∧
        (strDecode ((data.drop (12 + ks)).take vs)).isSome = true := by
  constructor
  · rintro ⟨⟨t, k, v⟩, hr⟩
    obtain ⟨ks, vs, hd, hlen, hk, hv⟩ := decode_kv_some_facts data t k v hr
    exact ⟨t, ks, vs, hd, hlen, by rw [hk]; rfl, by rw [hv]; rfl⟩
  · rintro ⟨t, ks, vs, hd, hlen, hks, hvs⟩
    rw [Option.isSome_iff_exists] at hks hvs
    obtain ⟨k, hk⟩ := hks
    obtain ⟨v, hv⟩ := hvs
    refine ⟨(t, k, v), ?_⟩
    simp only [decode_kv]
    norm_num
    refine ⟨by omega, ?_⟩
    rw [hd]
    dsimp only
    rw [if_pos (by omega), hk, hv]

/-- C7: when `encode_kv` succeeds, its output is exactly
`header || key_bytes || value_bytes`, with the header holding the
timestamp and the UTF-8 byte lengths of key and value, and the returned
size is the length of those bytes. -/
theorem claim_C7 (t : Nat) (k v : Str) (n : Nat) (buf : List Nat)
    (h : encode_kv t k v = some (n, buf)) :
    buf = (u32be t ++ u32be (utf8Encode k).length ++
        u32be (utf8Encode v).length) ++ utf8Encode k ++ utf8Encode v ∧
      n = buf.length := by
  obtain ⟨hbuf, hn, -⟩ := encode_kv_some t k v n buf h
  exact ⟨hbuf, hn⟩

/-- C7 witness: `encode_kv(0, "ab", "cde")` is exactly the 12-byte
header with big-endian fields `(0, 2, 3)` followed by the bytes of
`"ab"` then `"cde"`, and the returned size is 17. -/
theorem claim_C7_witness :
    encode_kv 0 [97, 98] [99, 100, 101] =
      some (17, [0, 0, 0, 0, 0, 0, 0, 2, 0, 0, 0, 3, 97, 98, 99, 100, 101]) ∧
    ([0, 0, 0, 0, 0, 0, 0, 2, 0, 0, 0, 3, 97, 98, 99, 100, 101] : List Nat) =
      (u32be 0 ++ u32be (utf8Encode [97, 98]).length ++
        u32be (utf8Encode [99, 100, 101]).length) ++
        utf8Encode [97, 98] ++ utf8Encode [99, 100, 101] ∧
    17 = [0, 0, 0, 0, 0, 0, 0, 2, 0, 0, 0, 3, 97, 98, 99, 100, 101].length := by
  have h := claim_C7 0 [97, 98] [99, 100, 101] 17
    [0, 0, 0, 0, 0, 0, 0, 2, 0, 0, 0, 3, 97, 98, 99, 100, 101] rfl
  exact ⟨rfl, h.1, h.2⟩

/-- C8: `decode_header` fails on every input whose length is not exactly
12 bytes. -/
theorem claim_C8 (data : List Nat) (h : data.length ≠ 12) :
    decode_header data = none := by
  unfold decode_header
  split
  · simp_all
  · rfl

/-- C8 witness: a 3-byte input is rejected. -/
theorem claim_C8_witness : decode_header [0, 0, 0] = none :=
  claim_C8 [0, 0, 0] (by decide)

/-- C9: on a reachable engine, a successful `set t k v` only appends to
the log file (the bytes before the pre-write offset are unchanged) and
only modifies the index at `k`: for every other key the index entry and
the result of a subsequent `get` are unchanged. -/
theorem claim_C9 (es : List (Nat × Str × Str)) (s s' : DiskStorage)
    (t : Nat) (k v : Str) (hreach : runSets es = some s)
    (h : s.set t k v = some s') :
    (∃ buf, s'.file = s.file ++ buf) ∧
    s'.file.take s.file.length = s.file ∧
    (∀ k', k' ≠ k → s'.mapping k' = s.mapping k') ∧
    (∀ k', k' ≠ k → s'.get k' = s.get k') := by
  obtain ⟨-, hs'⟩ := set_some s s' t k v h
  refine ⟨⟨entryBytes (t, k, v), by rw [hs']⟩,
    by rw [hs']; exact List.take_left _ _, ?_, ?_⟩
  · intro k' hne
    rw [hs']
    dsimp only
    rw [if_neg hne]
  · intro k' hne
    obtain ⟨r, hr⟩ := runSets_get_total es s hreach k'
    rw [hr]
    exact get_frame s s' t k v k' r h hne hr

/-- C9 witness: after writing key "h", a `set` of the different key "i"
leaves the file-prefix, the index entry and the `get` result of "h"
unchanged. -/
theorem claim_C9_witness :
    ∃ s s' : DiskStorage,
      runSets [(0, [104], [49])] = some s ∧
      s.set 1 [105] [50] = some s' ∧
      (∃ buf, s'.file = s.file ++ buf) ∧
      s'.mapping [104] = s.mapping [104] ∧
      s'.get [104] = s.get [104] := by
  obtain ⟨hbuf, -, hmap, hget⟩ :=
    claim_C9 [(0, [104], [49])] _ _ 1 [105] [50] rfl rfl
  exact ⟨_, _, rfl, rfl, hbuf, hmap [104] (by decide), hget [104] (by decide)⟩

/-- C10: on any file of bytes, a position with at least 12 bytes left
always yields a successfully decoded header — three integers below
`2^32`, with no content validation — and `read_serialised_header`
accepts it. -/
theorem claim_C10 (file : List Nat) (pos : Nat)
    (hb : ∀ b ∈ file, b < 256) (hpos : pos + 12 ≤ file.length) :
    ∃ t ks vs, decode_header ((file.drop pos).take 12) = some (t, ks, vs) ∧
      t < 2 ^ 32 ∧ ks < 2 ^ 32 ∧ vs < 2 ^ 32 ∧
      read_serialised_header file pos =
        some ((file.drop pos).take 12, t, ks, vs) := by
  have hlen : ((file.drop pos).take 12).length = 12 := by
    simp only [List.length_take, List.length_drop]
    omega
  have hmem : ∀ b ∈ (file.drop pos).take 12, b < 256 := fun b hbm =>
    hb b (List.drop_subset pos file (List.take_subset 12 _ hbm))
  obtain ⟨b0, b1, b2, b3, b4, b5, b6, b7, b8, b9, b10, b11, heq⟩ :=
    list_len_twelve _ hlen
  rw [heq] at hmem
  have hpow : (2 : Nat) ^ 32 = 4294967296 := by norm_num
  have hbd : b0 < 256 ∧ b1 < 256 ∧ b2 < 256 ∧ b3 < 256 ∧ b4 < 256 ∧
      b5 < 256 ∧ b6 < 256 ∧ b7 < 256 ∧ b8 < 256 ∧ b9 < 256 ∧
      b10 < 256 ∧ b11 < 256 := by
    refine ⟨?_, ?_, ?_, ?_, ?_, ?_, ?_, ?_, ?_, ?_, ?_, ?_⟩ <;>
      exact hmem _ (by simp)
  rw [heq]
  refine ⟨_, _, _, rfl, ?_, ?_, ?_, ?_⟩
  · rw [hpow]; omega
  · rw [hpow]; omega
  · rw [hpow]; omega
  · unfold read_serialised_header
    rw [heq, if_neg (by simp)]
    rfl
  
/-- C10 witness: an arbitrary 13-byte file decodes a header at offset 0. -/
theorem claim_C10_witness :
    ∃ t ks vs,
      decode_header ((([255, 0, 0, 1, 0, 0, 0, 2, 0, 0, 0, 3, 7] :
        List Nat).drop 0).take 12) = some (t, ks, vs) ∧
      t < 2 ^ 32 ∧ ks < 2 ^ 32 ∧ vs < 2 ^ 32 ∧
      read_serialised_header [255, 0, 0, 1, 0, 0, 0, 2, 0, 0, 0, 3, 7] 0 =
        some ((([255, 0, 0, 1, 0, 0, 0, 2, 0, 0, 0, 3, 7] :
          List Nat).drop 0).take 12, t, ks, vs) :=
  claim_C10 [255, 0, 0, 1, 0, 0, 0, 2, 0, 0, 0, 3, 7] 0 (by decide) (by decide)
